import Mathlib

/-!  Verification of the frame-pipeline and chained-playback datapack
     assembler implemented in `src/video_to_mc.py`.

     Modelling conventions:
     * Python strings are modelled as `List Char` (code-point lists).
     * Python float arithmetic (only used in the target-height computation)
       is idealized as exact rational arithmetic; `int(...)` on a
       nonnegative value is truncation, i.e. the floor.
     * External processes (ffmpeg) are modelled by their observable result:
       the prober receives `Option (List Char)` (`none` = launch
       failure/timeout, `some err` = captured diagnostic output).
     * The on-disk filesystem is modelled as an association list from
       segment paths to file contents.  -/

/-- Decimal digit character, `chr(48 + d)` for a digit value `d < 10`. -/
def digitChar (d : Nat) : Char := Char.ofNat (48 + d)

/-- Zero-padded `k`-digit decimal rendering, most significant digit first:
`padDigits 6 n` models the `%06d` printf field for `n < 10 ^ 6`. -/
def padDigits : Nat → Nat → List Char
  | 0, _ => []
  | k + 1, n => digitChar (n / 10 ^ k) :: padDigits k (n % 10 ^ k)

/-- Accumulator loop producing the decimal digits of `n` in front of
`acc`, least significant digit emitted first; the fuel argument only
bounds the recursion and any fuel above the digit count is enough. -/
def natCharsAux : Nat → Nat → List Char → List Char
  | 0, _, acc => acc
  | fuel + 1, n, acc =>
    if n / 10 = 0 then digitChar (n % 10) :: acc
    else natCharsAux fuel (n / 10) (digitChar (n % 10) :: acc)

/-- Decimal digits of `n` as Python `str(n)` renders a natural number
(most significant digit first, no padding); used for the `frame_{i}` and
`{name}_{i}` interpolations of the generated scripts. -/
def natChars (n : Nat) : List Char := natCharsAux (n + 1) n []

/-- Python `"%06d" % n`: zero-pads to width 6 and falls back to the plain
decimal form when `n` needs more than six digits. -/
def pad6 (n : Nat) : List Char :=
  if n < 1000000 then padDigits 6 n else natChars n

/-- Python string comparison `a <= b`: lexicographic by code point, with a
proper prefix ordered first.  This is the key `sorted(...)` uses. -/
def leL : List Char → List Char → Bool
  | [], _ => true
  | _ :: _, [] => false
  | a :: as, b :: bs => if a = b then leL as bs else decide (a < b)

/-- Value of an all-digit string, as `int(s)` computes it; also the
measure through which `natChars` is shown injective. -/
def digitsVal (s : List Char) : Nat :=
  s.foldl (fun a c => a * 10 + (c.toNat - 48)) 0

/-- Splitting a character list on a separator character, mirroring Python
`str.split(sep)` (empty pieces kept). -/
def splitOnChar (c : Char) : List Char → List (List Char)
  | [] => [[]]
  | a :: as =>
    match splitOnChar c as with
    | [] => [[]]
    | r :: rs => if a = c then [] :: r :: rs else (a :: r) :: rs

/-- `os.path.basename` for forward-slash paths: the final path component. -/
def basename (p : List Char) : List Char := (splitOnChar '/' p).getLastD []

/-- `os.path.join` for forward-slash paths built from a directory and a
file name. -/
def pathJoinC (dir name : List Char) : List Char := dir ++ '/' :: name

/-!  Configuration constants of the script (`video_to_mc.py`, lines 27-52).  -/

/-- Maximum output width, configuration constant `MAX_WIDTH` (line 30). -/
def MAX_WIDTH : Int := 640

/-- Color-quantization threshold `MAX_COLORS` (line 33): an optional
integer, `none` modelling Python `None`. -/
def MAX_COLORS : Option Nat := some 256

/-- Default datapack namespace `DEFAULT_DATAPACK_NAME` (line 44). -/
def DEFAULT_DATAPACK_NAME : List Char := "videopack".toList

/-- Particle identifier `PARTICLE` (line 36). -/
def PARTICLE : List Char := "minecraft:end_rod".toList

/-- Anchor position expression `ANCHOR_POS` (line 37). -/
def ANCHOR_POS : List Char := "~ ~1 ~".toList

/-- Particle group tag `GROUP` (line 41). -/
def GROUP : List Char := "null".toList

/-!  Resolution prober, `probe_video_resolution` (lines 110-129).
     The external process is abstracted to its observable outcome:
     `none` models a launch failure or timeout (the `except` branch,
     lines 116-117), `some err` models the captured diagnostic output. -/

/-- Python `str.splitlines` restricted to newline separators: the pieces
between newlines, with no trailing empty piece for a trailing newline. -/
def pySplitlines (s : List Char) : List (List Char) :=
  let ps := splitOnChar '\n' s
  if ps.getLast? = some [] then ps.dropLast else ps

/-- Python substring containment `needle in hay`. -/
def containsSub (needle : List Char) : List Char → Bool
  | [] => needle.isEmpty
  | a :: as => needle.isPrefixOf (a :: as) || containsSub needle as

/-- Splitting on a character-class predicate, keeping empty pieces. -/
def splitOnP (p : Char → Bool) : List Char → List (List Char)
  | [] => [[]]
  | a :: as =>
    match splitOnP p as with
    | [] => [[]]
    | r :: rs => if p a then [] :: r :: rs else (a :: r) :: rs

/-- Python `str.split()` with no argument: whitespace-delimited tokens,
empty tokens discarded. -/
def pySplit (s : List Char) : List (List Char) :=
  (splitOnP Char.isWhitespace s).filter (fun t => !t.isEmpty)

/-- Python `str.isdigit` on ASCII text: nonempty and all decimal digits. -/
def pyIsdigit (s : List Char) : Bool :=
  !s.isEmpty && s.all (fun c => decide ('0' ≤ c) && decide (c ≤ '9'))

/-- One token of the resolution scan (lines 124-128): accepted when it
contains exactly one `x` with nonempty digit strings on both sides. -/
def tokenRes (p : List Char) : Option (Nat × Nat) :=
  if p.countP (fun c => c = 'x') = 1 then
    match splitOnChar 'x' p with
    | [a, b] =>
      if pyIsdigit a && pyIsdigit b then some (digitsVal a, digitsVal b)
      else none
    | _ => none
  else none

/-- The marker of a video-stream description line (line 120). -/
def markerVideo : List Char := "Video:".toList

/-- Tokenization of a candidate line (line 122): commas replaced by
spaces, then whitespace split. -/
def lineTokens (line : List Char) : List (List Char) :=
  pySplit (line.map (fun c => if c = ',' then ' ' else c))

/-- Scan of one diagnostic line (lines 120-128): only lines containing
both the video marker and an `x` are tokenized; the first accepted token
wins. -/
def lineRes (line : List Char) : Option (Nat × Nat) :=
  if containsSub markerVideo line && containsSub ['x'] line then
    (lineTokens line).findSome? tokenRes
  else none

/-- Parsing of the whole diagnostic output (lines 118-129): the first
line whose scan succeeds supplies the result, else the fallback. -/
def parseResolution (err : List Char) : Nat × Nat :=
  ((pySplitlines err).findSome? lineRes).getD (1920, 1080)

/-- `probe_video_resolution` (lines 110-129): launch failure or timeout
(`none`) yields the fixed fallback, otherwise the diagnostic output is
parsed. -/
def probe_video_resolution (res : Option (List Char)) : Nat × Nat :=
  match res with
  | none => (1920, 1080)
  | some err => parseResolution err

/-!  Frame extractor scaling, `extract_frames_and_scale` (lines 131-154). -/

/-- Defensive fallback of lines 139-140: `if vw <= 0 or vh <= 0:
vw, vh = 1920, 1080`. -/
def fallbackResolution (vw vh : Int) : Int × Int :=
  if vw ≤ 0 || vh ≤ 0 then (1920, 1080) else (vw, vh)

/-- Target height of lines 142-143, `max(1, int(vh * (target_w / vw)))`,
with Python float arithmetic idealized as exact rational arithmetic:
`vh * (640 / vw)` is the rational `vh * 640 / vw` and `int` truncates it
toward zero, which on this nonnegative value is the floor — integer
division. -/
def target_h (vw vh : Int) : Int :=
  max 1 ((fallbackResolution vw vh).2 * MAX_WIDTH / (fallbackResolution vw vh).1)

/-- Output file template of line 151,
`f'{DEFAULT_DATAPACK_NAME}_%06d.png'` applied to frame number `n`
(ffmpeg numbers output images from 1). -/
def frameImageName (n : Nat) : List Char :=
  DEFAULT_DATAPACK_NAME ++ '_' :: (pad6 n ++ ".png".toList)

/-- The image files the extractor leaves in the output directory after
producing `N` frames: numbers `1 .. N` through the template. -/
def extractedFrames (N : Nat) : List (List Char) :=
  (List.range N).map (fun i => frameImageName (i + 1))

/-- The frames directory `frames_dir = 'frames'` of `main` (line 239). -/
def framesDir : List Char := "frames".toList

/-- `sorted(glob.glob(...))` over the frame files (lines 158 and 167):
Python `sorted` on distinct keys is the unique sort under the
lexicographic string order. -/
def sortedPngs (files : List (List Char)) : List (List Char) :=
  files.mergeSort leL

/-!  Package assembler, `build_datapack` (lines 165-224): generated
     script text. -/

/-- The render instruction written into every frame script (lines
203-205), with the configuration constants `SCALE = 0.1`, `DPB = 10.0`,
`LIFETIME_TICK = 2` interpolated as Python renders them. -/
def renderLine (name : List Char) : List Char :=
  "execute positioned ~ ~ ~ run particleex image ".toList ++ PARTICLE
    ++ ' ' :: ANCHOR_POS ++ ' ' :: name
    ++ " 0.1 0 0 0 not 10.0 0 0 0 2 \"vy=0\" 1.0 ".toList ++ GROUP ++ ['\n']

/-- The scheduling instruction of line 208,
`f'schedule function {datapack_name}:frame_{i+1} 1t\n'` with `j = i+1`. -/
def scheduleLine (ns : List Char) (j : Nat) : List Char :=
  "schedule function ".toList ++ ns ++ ":frame_".toList ++ natChars j
    ++ " 1t\n".toList

/-- The entry script content of line 191,
`f'function {datapack_name}:frame_0\n'`. -/
def entryLine (ns : List Char) : List Char :=
  "function ".toList ++ ns ++ ":frame_0\n".toList

/-- The lines written into frame script `i` of `N` (lines 200-208): one
render instruction, then a scheduling instruction when a next frame
exists. -/
def frameScriptLines (ns name : List Char) (i N : Nat) : List (List Char) :=
  renderLine name :: (if i + 1 < N then [scheduleLine ns (i + 1)] else [])

/-- File-name stem of frame script `i` (line 199): the interpolation
`f'{DEFAULT_DATAPACK_NAME}_{i}'` — note the default namespace constant,
not the run's namespace. -/
def scriptFileStem (i : Nat) : List Char :=
  DEFAULT_DATAPACK_NAME ++ '_' :: natChars i

/-- File name of frame script `i` (line 199),
`f'{DEFAULT_DATAPACK_NAME}_{i}.mcfunction'`. -/
def scriptFileName (i : Nat) : List Char :=
  scriptFileStem i ++ ".mcfunction".toList

/-- The namespace-qualified function name under which a script file is
registered by the engine: the namespace directory of the package,
`:`-joined with the file-name stem. -/
def scriptFunctionName (ns : List Char) (i : Nat) : List Char :=
  ns ++ ':' :: scriptFileStem i

/-- The function name the entry line invokes: the text of line 191
between `function ` and the newline. -/
def entryTargetName (ns : List Char) : List Char := ns ++ ":frame_0".toList

/-- The function name a scheduling line invokes: the text of line 208
between `schedule function ` and ` 1t`. -/
def scheduleTargetName (ns : List Char) (j : Nat) : List Char :=
  ns ++ ":frame_".toList ++ natChars j

/-- The per-frame scripts the assembler writes (lines 194-208), as
`(file name, lines)` pairs in frame order: script `i` renders the
basename of the `i`-th sorted image. -/
def frameScriptFiles (ns : List Char) (pngs : List (List Char)) :
    List (List Char × List (List Char)) :=
  pngs.enum.map (fun p => (scriptFileName p.1, frameScriptLines ns (basename p.2) p.1 pngs.length))

/-- A diagnostic output whose first video-marker line (`Video: xvid
extra`, which contains the marker and an `x`) has no `<digits>x<digits>`
token, while its second marker line carries the token `0x1080`. -/
def probeErrSample : List Char := "Video: xvid extra\nVideo: 0x1080".toList

/-- Recognizer of the scheduling instruction among the written lines of a
frame script: the written text of line 208 is exactly the line starting
with `schedule function `. -/
def isScheduleLine (l : List Char) : Bool :=
  "schedule function ".toList.isPrefixOf l

/-- The scheduling instructions contained in a script, given as the
script's written lines. -/
def scheduleLinesOf (ls : List (List Char)) : List (List Char) :=
  ls.filter isScheduleLine

/-- The frame files the extractor left in the frames directory, as the
glob pattern sees them (full paths, template numbering starting at 1),
in template order. -/
def framesOnDisk (N : Nat) : List (List Char) :=
  (extractedFrames N).map (pathJoinC framesDir)

/-- C10, as claimed for every frame count: however the directory listing
is ordered (any permutation, since `glob` promises no order), the `i`-th
entry of the sorted listing — whose basename is what frame script `i`'s
render instruction references — is the image the decoder numbered
`i + 1`. -/
def C10Prop (N : Nat) : Prop :=
  ∀ files : List (List Char), files.Perm (framesOnDisk N) →
    ∀ i, i < N →
      basename ((sortedPngs files).getD i []) = frameImageName (i + 1)

/-!  Filesystem model for the assembler's writes and the archiver
     (lines 165-219).  A path is a list of segments; the filesystem is an
     association list from paths to file contents.  `os.walk` enumerates
     exactly the files whose path extends the walked root, and
     `os.path.relpath(f, root)` on such a file drops the root segments. -/

/-- A filesystem path, as a list of name segments. -/
abbrev PathSeg : Type := List (List Char)

/-- The filesystem: an association list from paths to file contents. -/
abbrev FS : Type := List (PathSeg × List Char)

/-- Content of the file at `p`, when present. -/
def fsGet (fs : FS) (p : PathSeg) : Option (List Char) :=
  (List.find? (fun pc => decide (pc.1 = p)) fs).map (fun pc => pc.2)

/-- `open(p, 'w')` followed by writing `c`: the file at `p` now holds
`c`; every other file is untouched. -/
def fsWrite (fs : FS) (p : PathSeg) (c : List Char) : FS :=
  List.filter (fun pc => decide (pc.1 ≠ p)) fs ++ [(p, c)]

/-- A sequence of writes applied in order. -/
def applyWrites (fs : FS) (ws : List (PathSeg × List Char)) : FS :=
  ws.foldl (fun acc pc => fsWrite acc pc.1 pc.2) fs

/-- The files of `fs` living under `root` — what `os.walk(root)`
enumerates (lines 215-217). -/
def filesUnder (root : PathSeg) (fs : FS) : FS :=
  List.filter (fun pc => List.isPrefixOf root pc.1) fs

/-- The archive produced by lines 211-219: any pre-existing archive of
the target name is removed (`os.remove`) and a fresh archive is written
in mode `w`, holding every walked file under `arcname =
os.path.relpath(file, dp_root)` — the path with the root segments
dropped.  The previous archive never contributes. -/
def buildZipArchive (_prevArchive : Option FS) (root : PathSeg) (fs : FS) : FS :=
  List.map (fun pc => (List.drop root.length pc.1, pc.2)) (filesUnder root fs)

/-- The metadata file content of lines 180-187: `json.dump` of the
`pack.mcmeta` record with `pack_format` 6 and the namespace-bearing
description, at indent 2. -/
def mcmetaContent (ns : List Char) : List Char :=
  "\x7b\n  \"pack\": \x7b\n    \"pack_format\": 6,\n    \"description\": \"Video particle animation (".toList
    ++ ns ++ ")\"\n  \x7d\n\x7d".toList

/-- Path of the metadata file (line 186): `<dp_root>/pack.mcmeta`. -/
def mcmetaPath (ns : List Char) : PathSeg := [ns, "pack.mcmeta".toList]

/-- Segments of the functions directory (line 176):
`<dp_root>/data/<namespace>/functions`. -/
def funcDirSeg (ns : List Char) : PathSeg :=
  [ns, "data".toList, ns, "functions".toList]

/-- Path of the entry script (line 190). -/
def mainPath (ns : List Char) : PathSeg :=
  funcDirSeg ns ++ ["main.mcfunction".toList]

/-- Path of frame script `i` (line 199). -/
def scriptPath (ns : List Char) (i : Nat) : PathSeg :=
  funcDirSeg ns ++ [scriptFileName i]

/-- Full text of frame script `i` — its written lines, concatenated. -/
def scriptText (ns name : List Char) (i N : Nat) : List Char :=
  (frameScriptLines ns name i N).flatten

/-- The package-directory writes `build_datapack` performs, in program
order (lines 186-208): metadata file, entry script, then one frame
script per image.  (The image copies of line 197 go to the external
ParticleEx directory, outside the package root, and are tracked
separately.) -/
def packageWrites (ns : List Char) (pngs : List (List Char)) :
    List (PathSeg × List Char) :=
  (mcmetaPath ns, mcmetaContent ns) ::
  (mainPath ns, entryLine ns) ::
  pngs.enum.map (fun p =>
    (scriptPath ns p.1, scriptText ns (basename p.2) p.1 pngs.length))

/-- Effect of `build_datapack` on the filesystem holding the package
directory: with no images it returns before any write (lines 168-170);
otherwise it applies its writes over whatever is already on disk — the
package root is created with `exist_ok=True` (line 177) and never
cleared. -/
def build_datapack_fs (init : FS) (ns : List Char) (pngs : List (List Char)) :
    FS :=
  if pngs = [] then init else applyWrites init (packageWrites ns pngs)

/-- The external ParticleEx image directory, configuration constant
`PARTICLEEX_IMG_DIR` (lines 50-52). -/
def PARTICLEEX_IMG_DIR : List Char :=
  "D:\\我的世界\\minecraft\\.minecraft\\versions\\1.16.5-Fabric\\particleImages".toList

/-- Observable outcome of one `build_datapack` call. -/
structure BuildOutcome where
  mkdirs : List (List Char)
  pkgWrites : List (PathSeg × List Char)
  copyTargets : List (List Char)
  archiveWritten : Bool
  emptyWarning : Bool
deriving DecidableEq

/-- `build_datapack` (lines 165-224) as its observable outcome: an empty
image list prints the warning and returns before creating any directory,
writing any file, copying any image, or writing the archive; otherwise
the directories are ensured, the package files written, each image
copied into the ParticleEx directory, and the archive written. -/
def build_datapack_outcome (ns : List Char) (pngs : List (List Char)) :
    BuildOutcome :=
  if pngs = [] then
    { mkdirs := [], pkgWrites := [], copyTargets := [],
      archiveWritten := false, emptyWarning := true }
  else
    { mkdirs := [PARTICLEEX_IMG_DIR,
        ns ++ "/data/".toList ++ ns ++ "/functions".toList],
      pkgWrites := packageWrites ns pngs,
      copyTargets := pngs.map (fun src => pathJoinC PARTICLEEX_IMG_DIR (basename src)),
      archiveWritten := true, emptyWarning := false }

/-- `main` (lines 226-243) as exit code plus the assembler outcome it
reaches: missing argument or missing video exit 1 before the pipeline;
otherwise the stages run and the interpreter exits 0 — `build_datapack`'s
early return does not change the exit code. -/
def main_exit (argc : Nat) (videoExists : Bool)
    (pngs : List (List Char)) (ns : List Char) : Nat × Option BuildOutcome :=
  if argc < 2 then (1, none)
  else if videoExists = false then (1, none)
  else (0, some (build_datapack_outcome ns pngs))

/-- A sample filesystem: two files under the default package root, one
file elsewhere. -/
def fsSampleC7 : FS :=
  [([DEFAULT_DATAPACK_NAME, "pack.mcmeta".toList], "meta".toList),
   ([DEFAULT_DATAPACK_NAME, "data".toList, "f".toList], "body".toList),
   (["elsewhere".toList, "g".toList], "x".toList)]

/-- A sample pre-existing archive. -/
def prevSampleC7 : FS := [(["old".toList], "junk".toList)]

/-!  Image post-processor, `post_process_images` (lines 156-163).
     The image-codec library is an external collaborator: decoding,
     normalization to RGBA and re-encoding over the same path are
     lossless on pixel content, so they are modelled as the identity on
     the pixel list; `img.quantize(colors=m)` is an abstract quantizer
     returning an indexed palette image whose `convert('RGBA')` maps
     every index through the palette. -/

/-- An RGBA pixel. -/
abbrev Pixel : Type := Nat × Nat × Nat × Nat

/-- A palette-indexed image, as `Image.quantize` returns one: a palette
and one palette index per pixel. -/
structure PalImage where
  palette : List Pixel
  index : List Nat
deriving DecidableEq

/-- `convert('RGBA')` on a palette image: every index is replaced by its
palette entry. -/
def expandRGBA (pi : PalImage) : List Pixel :=
  pi.index.map (fun i => pi.palette.getD i (0, 0, 0, 0))

/-- The per-image transform of lines 160-163: decode and normalize to
RGBA, quantize and re-expand only when `MAX_COLORS` is truthy (non-`None`
and non-zero) and below 256, then re-encode over the same path. -/
def postProcessPixels (maxColors : Option Nat)
    (quantize : Nat → List Pixel → PalImage) (img : List Pixel) : List Pixel :=
  match maxColors with
  | none => img
  | some m => if m ≠ 0 ∧ m < 256 then expandRGBA (quantize m img) else img

/-- Number of distinct colors of an image. -/
def distinctColors (img : List Pixel) : Nat := img.dedup.length

/-- A two-color sample image. -/
def imgSample : List Pixel := [(0, 0, 0, 255), (9, 9, 9, 255)]

/-- A quantizer whose output differs from `imgSample`. -/
def quantSampleZero : Nat → List Pixel → PalImage :=
  fun _ _ => ⟨[(1, 2, 3, 4)], [0, 0]⟩

/-- A single-color quantizer satisfying the palette-size contract for
every positive threshold. -/
def quantSampleConst : Nat → List Pixel → PalImage :=
  fun _ img => ⟨[(0, 0, 0, 0)], List.replicate img.length 0⟩

theorem leL_refl (a : List Char) : leL a a = true := by
  induction a with
  | nil => rfl
  | cons x xs ih => simp [leL, ih]

theorem leL_trans : ∀ a b c : List Char,
    leL a b = true → leL b c = true → leL a c = true
  | [], _, _, _, _ => rfl
  | _ :: _, [], _, h, _ => by simp [leL] at h
  | _ :: _, _ :: _, [], _, h => by simp [leL] at h
  | a :: as, b :: bs, c :: cs, h₁, h₂ => by
    simp only [leL] at h₁ h₂ ⊢
    by_cases hab : a = b
    · subst hab
      by_cases hbc : a = c
      · subst hbc
        simp only [if_pos rfl] at h₁ h₂ ⊢
        exact leL_trans as bs cs h₁ h₂
      · simp only [if_pos rfl] at h₁
        simp only [if_neg hbc] at h₂ ⊢
        exact h₂
    · by_cases hbc : b = c
      · subst hbc
        have hac : a ≠ b := hab
        simp only [if_neg hab] at h₁ ⊢
        exact h₁
      · have hab' : a < b := of_decide_eq_true (by simpa [if_neg hab] using h₁)
        have hbc' : b < c := of_decide_eq_true (by simpa [if_neg hbc] using h₂)
        have hac : a < c := lt_trans hab' hbc'
        simp [if_neg (ne_of_lt hac), hac]

theorem leL_total : ∀ a b : List Char, leL a b = true ∨ leL b a = true
  | [], _ => Or.inl rfl
  | _ :: _, [] => Or.inr rfl
  | a :: as, b :: bs => by
    by_cases hab : a = b
    · subst hab
      rcases leL_total as bs with h | h
      · exact Or.inl (by simp [leL, h])
      · exact Or.inr (by simp [leL, h])
    · rcases lt_or_gt_of_ne hab with h | h
      · exact Or.inl (by simp [leL, if_neg hab, h])
      · exact Or.inr (by simp [leL, if_neg (Ne.symm hab), h])

theorem leL_antisymm : ∀ a b : List Char,
    leL a b = true → leL b a = true → a = b
  | [], [], _, _ => rfl
  | [], _ :: _, _, h => by simp [leL] at h
  | _ :: _, [], h, _ => by simp [leL] at h
  | a :: as, b :: bs, h₁, h₂ => by
    by_cases hab : a = b
    · subst hab
      simp only [leL, if_pos rfl] at h₁ h₂
      rw [leL_antisymm as bs h₁ h₂]
    · exfalso
      have hab' : a < b := of_decide_eq_true (by simpa [leL, if_neg hab] using h₁)
      have hba' : b < a :=
        of_decide_eq_true (by simpa [leL, if_neg (Ne.symm hab)] using h₂)
      exact absurd hab' (not_lt_of_gt hba')

/-- Comparing two lists that share a common prefix compares the tails. -/
theorem leL_append_same : ∀ p a b : List Char, leL (p ++ a) (p ++ b) = leL a b
  | [], _, _ => rfl
  | c :: p, a, b => by simp [leL, leL_append_same p a b]

/-- Comparing two distinct equal-length lists ignores any suffixes. -/
theorem leL_append_of_ne : ∀ x y s t : List Char,
    x.length = y.length → x ≠ y → leL (x ++ s) (y ++ t) = leL x y
  | [], [], _, _, _, hne => absurd rfl hne
  | [], _ :: _, _, _, hl, _ => by simp at hl
  | _ :: _, [], _, _, hl, _ => by simp at hl
  | a :: x, b :: y, s, t, hl, hne => by
    by_cases hab : a = b
    · subst hab
      have hxy : x ≠ y := fun h => hne (by rw [h])
      simp only [List.cons_append, leL, if_pos rfl]
      exact leL_append_of_ne x y s t (by simpa using hl) hxy
    · simp [leL, if_neg hab]

theorem padDigits_length : ∀ k n, (padDigits k n).length = k
  | 0, _ => rfl
  | k + 1, n => by simp [padDigits, padDigits_length k]

theorem digitChar_lt_digitChar :
    ∀ d₁ < 10, ∀ d₂ < 10, d₁ < d₂ → digitChar d₁ < digitChar d₂ := by decide

/-- Strict monotonicity of the zero-padded rendering below its capacity:
this is what makes lexicographic filename order agree with numeric order
for the six-digit template as long as the index stays under `10 ^ k`. -/
theorem padDigits_lt : ∀ k a b, a < b → b < 10 ^ k →
    leL (padDigits k a) (padDigits k b) = true ∧ padDigits k a ≠ padDigits k b
  | 0, a, b, hab, hb => by
    exfalso
    have : b = 0 := Nat.lt_one_iff.mp (by simpa using hb)
    omega
  | k + 1, a, b, hab, hb => by
    have hpow : 0 < 10 ^ k := Nat.pos_pow_of_pos k (by norm_num)
    have hbd : b / 10 ^ k < 10 := by
      rw [Nat.div_lt_iff_lt_mul hpow]
      calc b < 10 ^ (k + 1) := hb
        _ = 10 * 10 ^ k := by ring
    have had : a / 10 ^ k < 10 :=
      lt_of_le_of_lt (Nat.div_le_div_right (le_of_lt hab)) hbd
    rcases lt_or_eq_of_le (Nat.div_le_div_right (le_of_lt hab)) with hlt | heq
    · have hc : digitChar (a / 10 ^ k) < digitChar (b / 10 ^ k) :=
        digitChar_lt_digitChar _ had _ hbd hlt
      constructor
      · simp [padDigits, leL, if_neg (ne_of_lt hc), hc]
      · intro h
        exact absurd (List.head_eq_of_cons_eq h) (ne_of_lt hc)
    · have hda : a = 10 ^ k * (a / 10 ^ k) + a % 10 ^ k := (Nat.div_add_mod a _).symm
      have hdb : b = 10 ^ k * (b / 10 ^ k) + b % 10 ^ k := (Nat.div_add_mod b _).symm
      rw [heq] at hda
      have hmod : a % 10 ^ k < b % 10 ^ k := by omega
      have hmb : b % 10 ^ k < 10 ^ k := Nat.mod_lt _ hpow
      obtain ⟨ih₁, ih₂⟩ := padDigits_lt k (a % 10 ^ k) (b % 10 ^ k) hmod hmb
      constructor
      · simp [padDigits, leL, heq, ih₁]
      · intro h
        exact ih₂ (by simpa [padDigits, heq] using List.tail_eq_of_cons_eq h)

theorem digitsVal_foldl_shift (a : Nat) : ∀ l : List Char,
    l.foldl (fun x c => x * 10 + (c.toNat - 48)) a
      = a * 10 ^ l.length + digitsVal l
  | [] => by simp [digitsVal]
  | c :: l => by
    have h1 := digitsVal_foldl_shift (a * 10 + (c.toNat - 48)) l
    have h2 := digitsVal_foldl_shift (c.toNat - 48) l
    simp only [List.foldl_cons, digitsVal] at *
    rw [h1]
    rw [show ((0 : Nat) * 10 + (c.toNat - 48)) = c.toNat - 48 by ring, h2]
    simp only [List.length_cons]
    ring

theorem digitChar_toNat : ∀ d < 10, (digitChar d).toNat = 48 + d := by decide

theorem digitsVal_natCharsAux : ∀ (fuel n : Nat) (acc : List Char),
    n < 10 ^ fuel →
    digitsVal (natCharsAux fuel n acc) = n * 10 ^ acc.length + digitsVal acc
  | 0, n, acc, hn => by
    have : n = 0 := Nat.lt_one_iff.mp (by simpa using hn)
    simp [natCharsAux, this]
  | fuel + 1, n, acc, hn => by
    by_cases h0 : n / 10 = 0
    · have hlt : n < 10 := by omega
      have hmod : n % 10 = n := Nat.mod_eq_of_lt hlt
      simp only [natCharsAux, if_pos h0, digitsVal, List.foldl_cons]
      rw [digitsVal_foldl_shift]
      rw [digitChar_toNat (n % 10) (Nat.mod_lt n (by norm_num))]
      simp [hmod, digitsVal]
    · have hdiv : n / 10 < 10 ^ fuel := by
        have h10 : (10 : Nat) ^ (fuel + 1) = 10 ^ fuel * 10 := by ring
        rw [Nat.div_lt_iff_lt_mul (by norm_num : (0:Nat) < 10)]
        omega
      have ih := digitsVal_natCharsAux fuel (n / 10) (digitChar (n % 10) :: acc) hdiv
      simp only [natCharsAux, if_neg h0]
      rw [ih]
      have hv : digitsVal (digitChar (n % 10) :: acc)
          = (n % 10) * 10 ^ acc.length + digitsVal acc := by
        simp only [digitsVal, List.foldl_cons]
        rw [digitsVal_foldl_shift]
        rw [digitChar_toNat (n % 10) (Nat.mod_lt n (by omega))]
        simp [digitsVal]
      rw [hv, List.length_cons]
      have hdm := Nat.div_add_mod n 10
      calc n / 10 * 10 ^ (acc.length + 1) + ((n % 10) * 10 ^ acc.length + digitsVal acc)
          = (n / 10 * 10 + n % 10) * 10 ^ acc.length + digitsVal acc := by ring
        _ = n * 10 ^ acc.length + digitsVal acc := by
            have hdm2 : n / 10 * 10 + n % 10 = n := by omega
            rw [hdm2]

theorem digitsVal_natChars (n : Nat) : digitsVal (natChars n) = n := by
  have hn : n < 10 ^ (n + 1) := by
    calc n < 2 ^ n := Nat.lt_two_pow n
      _ ≤ 10 ^ n := Nat.pow_le_pow_left (by norm_num) n
      _ ≤ 10 ^ (n + 1) := Nat.pow_le_pow_right (by norm_num) (Nat.le_succ n)
  have := digitsVal_natCharsAux (n + 1) n [] hn
  simpa [natChars, digitsVal] using this

/-- `natChars` (Python `str`) is injective on natural numbers. -/
theorem natChars_injective : Function.Injective natChars := by
  intro a b h
  have := congrArg digitsVal h
  rwa [digitsVal_natChars, digitsVal_natChars] at this

theorem splitOnChar_ne_nil (c : Char) : ∀ s, splitOnChar c s ≠ []
  | [] => by simp [splitOnChar]
  | a :: as => by
    simp only [splitOnChar]
    rcases h : splitOnChar c as with _ | ⟨r, rs⟩
    · simp
    · by_cases hac : a = c <;> simp [hac]

theorem splitOnChar_of_not_mem {c : Char} : ∀ {s : List Char}, c ∉ s →
    splitOnChar c s = [s]
  | [], _ => rfl
  | a :: as, h => by
    have has : c ∉ as := fun hm => h (List.mem_cons_of_mem a hm)
    have hac : a ≠ c := fun he => h (he ▸ List.mem_cons_self a as)
    simp [splitOnChar, splitOnChar_of_not_mem has, hac]

theorem splitOnChar_append_cons {c : Char} : ∀ {d : List Char}, c ∉ d →
    ∀ n, splitOnChar c (d ++ c :: n) = d :: splitOnChar c n
  | [], _, n => by
    simp only [List.nil_append, splitOnChar]
    rcases h : splitOnChar c n with _ | ⟨r, rs⟩
    · exact absurd h (splitOnChar_ne_nil c n)
    · simp
  | a :: d, h, n => by
    have hd : c ∉ d := fun hm => h (List.mem_cons_of_mem a hm)
    have hac : a ≠ c := fun he => h (he ▸ List.mem_cons_self a d)
    simp [splitOnChar, splitOnChar_append_cons hd n, hac]

theorem basename_pathJoinC {dir name : List Char} (hd : '/' ∉ dir)
    (hn : '/' ∉ name) : basename (pathJoinC dir name) = name := by
  simp [basename, pathJoinC, splitOnChar_append_cons hd,
    splitOnChar_of_not_mem hn]

theorem entryLine_eq (ns : List Char) :
    entryLine ns = "function ".toList ++ (entryTargetName ns ++ ['\n']) := by
  have h : (":frame_0\n".toList : List Char) = ":frame_0".toList ++ ['\n'] := rfl
  simp [entryLine, entryTargetName, h]

theorem scheduleLine_eq (ns : List Char) (j : Nat) :
    scheduleLine ns j
      = "schedule function ".toList ++ (scheduleTargetName ns j ++ " 1t\n".toList) := by
  simp [scheduleLine, scheduleTargetName]

/-- C1: the claim states that the entry script and every scheduling
instruction invoke the next frame script by the namespace-qualified name
under which that script file was actually written.  The code violates
this: the entry line (line 191) and the schedule lines (line 208) invoke
`ns:frame_i`, but the script files are written under the stem
`{DEFAULT_DATAPACK_NAME}_i` (line 199), registered as
`ns:videopack_i`.  Evaluated at the failing input — one frame, the
default namespace — the invoked names match no written script file,
contradicting the module docstring, which promises per-frame functions
`frame_0...frame_N` (line 10). -/
theorem C1_invoked_names_never_match_written_files :
    entryTargetName DEFAULT_DATAPACK_NAME ≠ scriptFunctionName DEFAULT_DATAPACK_NAME 0 ∧
    scheduleTargetName DEFAULT_DATAPACK_NAME 1 ≠ scriptFunctionName DEFAULT_DATAPACK_NAME 1 ∧
    (frameScriptFiles DEFAULT_DATAPACK_NAME
        [pathJoinC framesDir (frameImageName 1)]).map (fun p => p.1)
      = ["videopack_0.mcfunction".toList] ∧
    entryLine DEFAULT_DATAPACK_NAME = "function videopack:frame_0\n".toList := by
  refine ⟨by decide, by decide, by decide, by decide⟩

/-- C4 counterexample: the claim says the target height is
`round(vh * target_width / vw)`, but the code truncates
(`int(...)`).  At source resolution `(1920, 1079)` the exact value is
`359.666…`, so rounding gives `360` while the code computes `359`. -/
theorem C4_counterexample_round_vs_trunc :
    target_h 1920 1079 = 359 ∧
    (max 1 (round ((1079 * 640 : ℚ) / 1920)) : ℤ) = 360 ∧
    target_h 1920 1079 ≠ max 1 (round ((1079 * 640 : ℚ) / 1920)) := by
  have h1 : target_h 1920 1079 = 359 := by decide
  have h2 : (max 1 (round ((1079 * 640 : ℚ) / 1920)) : ℤ) = 360 := by
    norm_num [round_eq]
  exact ⟨h1, h2, by rw [h1, h2]; decide⟩

/-- C4 amended: for positive source dimensions the computed target height
is `max 1 ⌊vh * 640 / vw⌋` — the floor (truncation), not the rounding, of
the aspect-preserving ratio; in particular source `(1920, 1080)` with
target width 640 yields exactly 360. -/
theorem C4_target_height_floor (vw vh : Int) (hw : 0 < vw) (hh : 0 < vh) :
    target_h vw vh = max 1 ⌊(vh * 640 : ℚ) / (vw : ℚ)⌋ ∧
    target_h 1920 1080 = 360 := by
  constructor
  · have hfb : fallbackResolution vw vh = (vw, vh) := by
      have h1 : ¬ vw ≤ 0 := not_le.mpr hw
      have h2 : ¬ vh ≤ 0 := not_le.mpr hh
      simp [fallbackResolution, h1, h2]
    have hvw : ((vw.toNat : ℤ) : ℚ) = (vw : ℚ) := by
      rw [Int.toNat_of_nonneg hw.le]
    have hfl : ⌊(vh * 640 : ℚ) / (vw : ℚ)⌋ = (vh * 640) / vw := by
      have := Rat.floor_intCast_div_natCast (vh * 640) vw.toNat
      rw [show ((vw.toNat : ℕ) : ℚ) = ((vw.toNat : ℤ) : ℚ) by push_cast; ring] at this
      rw [hvw] at this
      rw [show (((vh * 640 : ℤ)) : ℚ) = (vh : ℚ) * 640 by push_cast; ring] at this
      rw [this, Int.toNat_of_nonneg hw.le]
    rw [hfl]
    simp [target_h, hfb, MAX_WIDTH]
  · decide

/-- C4 witness: the amended statement evaluated at source resolution
`(1920, 1080)`. -/
theorem C4_target_height_floor_witness :
    target_h 1920 1080 = max 1 ⌊(1080 * 640 : ℚ) / (1920 : ℚ)⌋ ∧
    target_h 1920 1080 = 360 :=
  C4_target_height_floor 1920 1080 (by decide) (by decide)

/-- C5: whenever the probed width or height is non-positive the extractor
substitutes the fallback `(1920, 1080)` before computing the target
height (lines 139-140), and — for every probed pair whatsoever — the
divisor used in the height computation is positive, so the division is
never by zero or by a negative number. -/
theorem C5_fallback_guards_division (vw vh : Int) (h : vw ≤ 0 ∨ vh ≤ 0) :
    fallbackResolution vw vh = (1920, 1080) ∧
    ∀ a b : Int, 0 < (fallbackResolution a b).1 := by
  constructor
  · rcases h with h | h <;> simp [fallbackResolution, h]
  · intro a b
    by_cases ha : a ≤ 0
    · simp [fallbackResolution, ha]
    · by_cases hb : b ≤ 0
      · simp [fallbackResolution, hb]
      · simp [fallbackResolution, ha, hb]
        omega

/-- C5 witness: the degenerate probed resolution `(0, 1080)` from the
specification's example. -/
theorem C5_fallback_guards_division_witness :
    fallbackResolution 0 1080 = (1920, 1080) ∧
    ∀ a b : Int, 0 < (fallbackResolution a b).1 :=
  C5_fallback_guards_division 0 1080 (Or.inl le_rfl)

/-- C6 counterexample: the claim says the prober returns a pair of
positive integers taken from the first line containing the video-stream
marker (ignoring later matches), with the fallback whenever no token of
that line matches.  On `probeErrSample` the first marker line has no
matching token, so the claim demands the fallback `(1920, 1080)`; the
code instead continues scanning, takes `0x1080` from the second marker
line, and returns `(0, 1080)` — which is also not a pair of positive
integers. -/
theorem C6_counterexample_probe :
    probe_video_resolution (some probeErrSample) = (0, 1080) ∧
    ¬ 0 < (probe_video_resolution (some probeErrSample)).1 ∧
    probe_video_resolution (some probeErrSample) ≠ (1920, 1080) := by
  refine ⟨by decide, by decide, by decide⟩

/-- C6 amended: the prober never aborts and returns a pair of nonnegative
integers, as follows: a process-launch failure or timeout yields the
fallback `(1920, 1080)`; so does a diagnostic output in which no line
yields a token (a line is scanned only if it contains the video marker
and an `x`, and yields the first token of the form `<digits>x<digits>`
with exactly one separator, if any).  Otherwise the result is the token
of the earliest line that yields one — lines before it yielding none —
and later matches are ignored. -/
theorem C6_probe_first_matching_line (err : List Char)
    (pre post : List (List Char)) (line : List Char) (w h : Nat)
    (hsplit : pySplitlines err = pre ++ line :: post)
    (hpre : ∀ l ∈ pre, lineRes l = none)
    (hline : lineRes line = some (w, h)) :
    probe_video_resolution (some err) = (w, h) ∧
    probe_video_resolution none = (1920, 1080) ∧
    ∀ s : List Char, (∀ l ∈ pySplitlines s, lineRes l = none) →
      probe_video_resolution (some s) = (1920, 1080) := by
  refine ⟨?_, rfl, ?_⟩
  · show parseResolution err = (w, h)
    unfold parseResolution
    rw [hsplit, List.findSome?_append, List.findSome?_eq_none_iff.mpr hpre]
    simp [List.findSome?_cons, hline]
  · intro s hs
    show parseResolution s = (1920, 1080)
    unfold parseResolution
    rw [List.findSome?_eq_none_iff.mpr hs]
    rfl

/-- C6 witness: a diagnostic output whose second line is the first
marker line and yields `1280x720`. -/
theorem C6_probe_first_matching_line_witness :
    probe_video_resolution (some ("Input #0\nVideo: h264, 1280x720, 30 fps".toList))
      = (1280, 720) ∧
    probe_video_resolution none = (1920, 1080) ∧
    ∀ s : List Char, (∀ l ∈ pySplitlines s, lineRes l = none) →
      probe_video_resolution (some s) = (1920, 1080) :=
  C6_probe_first_matching_line ("Input #0\nVideo: h264, 1280x720, 30 fps".toList)
    ["Input #0".toList] [] ("Video: h264, 1280x720, 30 fps".toList) 1280 720
    (by decide) (by decide) (by decide)

theorem isPrefixOf_append_self : ∀ l r : List Char, l.isPrefixOf (l ++ r) = true
  | [], _ => by simp [List.isPrefixOf]
  | a :: l, r => by simp [List.isPrefixOf, isPrefixOf_append_self l r]

theorem isScheduleLine_renderLine (name : List Char) :
    isScheduleLine (renderLine name) = false := rfl

theorem isScheduleLine_scheduleLine (ns : List Char) (j : Nat) :
    isScheduleLine (scheduleLine ns j) = true := by
  have h : scheduleLine ns j = "schedule function ".toList
      ++ (ns ++ ":frame_".toList ++ natChars j ++ " 1t\n".toList) := by
    simp [scheduleLine]
  rw [isScheduleLine, h, isPrefixOf_append_self]

theorem scheduleLinesOf_frameScriptLines (ns name : List Char) (i N : Nat) :
    scheduleLinesOf (frameScriptLines ns name i N)
      = if i + 1 < N then [scheduleLine ns (i + 1)] else [] := by
  by_cases h : i + 1 < N
  · simp [scheduleLinesOf, frameScriptLines, h, List.filter,
      isScheduleLine_renderLine, isScheduleLine_scheduleLine]
  · simp [scheduleLinesOf, frameScriptLines, h, List.filter,
      isScheduleLine_renderLine]

theorem frameScriptFiles_getD (ns : List Char) (pngs : List (List Char))
    (i : Nat) (hi : i < pngs.length) :
    (frameScriptFiles ns pngs).getD i ([], [])
      = (scriptFileName i,
         frameScriptLines ns (basename (pngs.getD i [])) i pngs.length) := by
  have hlen : i < (frameScriptFiles ns pngs).length := by
    simpa [frameScriptFiles, List.enum_length] using hi
  rw [List.getD_eq_getElem _ _ hlen]
  have henum : i < pngs.enum.length := by simpa [List.enum_length] using hi
  simp only [frameScriptFiles, List.getElem_map, List.getElem_enum]
  rw [List.getD_eq_getElem _ _ hi]

theorem sum_schedule_indicator : ∀ N : Nat,
    ((List.range N).map (fun i => if i + 1 < N then 1 else 0)).sum = N - 1 := by
  intro N
  cases N with
  | zero => rfl
  | succ M =>
    rw [List.range_succ, List.map_append, List.sum_append]
    have hcongr : (List.range M).map (fun i => if i + 1 < M + 1 then 1 else 0)
        = (List.range M).map (Function.const Nat 1) := by
      apply List.map_congr_left
      intro i hi
      rw [List.mem_range] at hi
      simp [Nat.succ_lt_succ hi]
    rw [hcongr, List.map_const, List.sum_replicate]
    simp

/-- C2: for every (sorted) nonempty image list of length `N`, the
assembler writes exactly `N` frame scripts whose file names carry the
indices `0 .. N-1` in order; every non-terminal script `i` contains
exactly one scheduling instruction, the one invoking index `i + 1`; the
terminal script `N - 1` contains none; and the total number of
scheduling instructions is `N - 1`.  The chain therefore mirrors frame
index order, strictly forward, with a single terminal state. -/
theorem C2_frame_script_chain (ns : List Char) (pngs : List (List Char))
    (hne : pngs ≠ []) :
    (frameScriptFiles ns pngs).length = pngs.length ∧
    (frameScriptFiles ns pngs).map (fun p => p.1)
      = (List.range pngs.length).map scriptFileName ∧
    (∀ i, i < pngs.length →
      scheduleLinesOf ((frameScriptFiles ns pngs).getD i ([], [])).2
        = if i + 1 < pngs.length then [scheduleLine ns (i + 1)] else []) ∧
    scheduleLinesOf ((frameScriptFiles ns pngs).getD (pngs.length - 1) ([], [])).2
      = [] ∧
    ((frameScriptFiles ns pngs).map (fun p => (scheduleLinesOf p.2).length)).sum
      = pngs.length - 1 := by
  have hlen : (frameScriptFiles ns pngs).length = pngs.length := by
    simp [frameScriptFiles, List.enum_length]
  have hidx : ∀ i, i < pngs.length →
      scheduleLinesOf ((frameScriptFiles ns pngs).getD i ([], [])).2
        = if i + 1 < pngs.length then [scheduleLine ns (i + 1)] else [] := by
    intro i hi
    rw [frameScriptFiles_getD ns pngs i hi]
    exact scheduleLinesOf_frameScriptLines ns _ i pngs.length
  refine ⟨hlen, ?_, hidx, ?_, ?_⟩
  · rw [frameScriptFiles, List.map_map]
    have : ((fun p => p.1) ∘ fun p : Nat × List Char =>
        (scriptFileName p.1, frameScriptLines ns (basename p.2) p.1 pngs.length))
        = scriptFileName ∘ Prod.fst := rfl
    rw [this, ← List.map_map, List.enum_map_fst]
  · have hpos : 0 < pngs.length := List.length_pos.mpr hne
    have hlast : pngs.length - 1 < pngs.length := by omega
    rw [hidx _ hlast]
    have : ¬ (pngs.length - 1 + 1 < pngs.length) := by omega
    simp [this]
  · rw [frameScriptFiles, List.map_map]
    have hfun : ((fun p => (scheduleLinesOf p.2).length) ∘ fun p : Nat × List Char =>
        (scriptFileName p.1, frameScriptLines ns (basename p.2) p.1 pngs.length))
        = (fun i => if i + 1 < pngs.length then 1 else 0) ∘ Prod.fst := by
      funext p
      simp only [Function.comp_apply]
      rw [scheduleLinesOf_frameScriptLines]
      by_cases h : p.1 + 1 < pngs.length <;> simp [h]
    rw [hfun, ← List.map_map, List.enum_map_fst]
    exact sum_schedule_indicator pngs.length

/-- C2 witness: the chain built over two frame images. -/
theorem C2_frame_script_chain_witness :
    (frameScriptFiles DEFAULT_DATAPACK_NAME
        [pathJoinC framesDir (frameImageName 1),
         pathJoinC framesDir (frameImageName 2)]).length = 2 ∧
    (frameScriptFiles DEFAULT_DATAPACK_NAME
        [pathJoinC framesDir (frameImageName 1),
         pathJoinC framesDir (frameImageName 2)]).map (fun p => p.1)
      = (List.range 2).map scriptFileName ∧
    (∀ i, i < 2 →
      scheduleLinesOf ((frameScriptFiles DEFAULT_DATAPACK_NAME
          [pathJoinC framesDir (frameImageName 1),
           pathJoinC framesDir (frameImageName 2)]).getD i ([], [])).2
        = if i + 1 < 2 then [scheduleLine DEFAULT_DATAPACK_NAME (i + 1)] else []) ∧
    scheduleLinesOf ((frameScriptFiles DEFAULT_DATAPACK_NAME
        [pathJoinC framesDir (frameImageName 1),
         pathJoinC framesDir (frameImageName 2)]).getD (2 - 1) ([], [])).2 = [] ∧
    ((frameScriptFiles DEFAULT_DATAPACK_NAME
        [pathJoinC framesDir (frameImageName 1),
         pathJoinC framesDir (frameImageName 2)]).map
          (fun p => (scheduleLinesOf p.2).length)).sum = 2 - 1 := by
  have h := C2_frame_script_chain DEFAULT_DATAPACK_NAME
    [pathJoinC framesDir (frameImageName 1),
     pathJoinC framesDir (frameImageName 2)] (by decide)
  simpa using h

theorem not_slash_padDigits : ∀ k n, n < 10 ^ k → '/' ∉ padDigits k n := by
  intro k
  induction k with
  | zero => intro n _ h; simp [padDigits] at h
  | succ k ih =>
    intro n hn h
    have hpow : 0 < 10 ^ k := Nat.pos_pow_of_pos k (by norm_num)
    have hd : n / 10 ^ k < 10 := by
      rw [Nat.div_lt_iff_lt_mul hpow]
      calc n < 10 ^ (k + 1) := hn
        _ = 10 * 10 ^ k := by ring
    rcases List.mem_cons.mp h with h1 | h2
    · have : ∀ d < 10, digitChar d ≠ '/' := by decide
      exact this _ hd h1.symm
    · exact ih (n % 10 ^ k) (Nat.mod_lt _ hpow) h2

theorem not_slash_natCharsAux : ∀ fuel n acc, '/' ∉ acc →
    '/' ∉ natCharsAux fuel n acc := by
  intro fuel
  induction fuel with
  | zero => intro n acc hacc; simpa [natCharsAux] using hacc
  | succ fuel ih =>
    intro n acc hacc
    have hd : ∀ d < 10, digitChar d ≠ '/' := by decide
    by_cases h0 : n / 10 = 0
    · simp only [natCharsAux, if_pos h0]
      intro hmem
      rcases List.mem_cons.mp hmem with h1 | h2
      · exact hd _ (Nat.mod_lt n (by omega)) h1.symm
      · exact hacc h2
    · simp only [natCharsAux, if_neg h0]
      apply ih
      intro hmem
      rcases List.mem_cons.mp hmem with h1 | h2
      · exact hd _ (Nat.mod_lt n (by omega)) h1.symm
      · exact hacc h2

theorem not_slash_frameImageName (n : Nat) : '/' ∉ frameImageName n := by
  intro h
  rcases List.mem_append.mp h with h1 | h2
  · exact absurd h1 (by decide)
  · rcases List.mem_cons.mp h2 with h3 | h4
    · exact absurd h3 (by decide)
    · rcases List.mem_append.mp h4 with h5 | h6
      · by_cases hlt : n < 1000000
        · refine not_slash_padDigits 6 n ?_ (by simpa [pad6, hlt] using h5)
          norm_num
          exact hlt
        · exact not_slash_natCharsAux (n + 1) n [] (by simp)
            (by simpa [pad6, hlt, natChars] using h5)
      · exact absurd h6 (by decide)

theorem basename_frame_path (n : Nat) :
    basename (pathJoinC framesDir (frameImageName n)) = frameImageName n :=
  basename_pathJoinC (by decide) (not_slash_frameImageName n)

/-- Lexicographic order agrees with numeric order on the six-digit
zero-padded file names as long as both numbers fit in six digits. -/
theorem leL_frameImageName {a b : Nat} (hab : a < b) (hb : b < 1000000) :
    leL (frameImageName a) (frameImageName b) = true ∧
    frameImageName a ≠ frameImageName b := by
  have ha : a < 1000000 := lt_trans hab hb
  have hpadlt := padDigits_lt 6 a b hab (by simpa using hb)
  have hlen : (padDigits 6 a).length = (padDigits 6 b).length := by
    rw [padDigits_length, padDigits_length]
  have hkey : frameImageName a
      = (DEFAULT_DATAPACK_NAME ++ ['_']) ++ (padDigits 6 a ++ ".png".toList) := by
    simp [frameImageName, pad6, ha]
  have hkey2 : frameImageName b
      = (DEFAULT_DATAPACK_NAME ++ ['_']) ++ (padDigits 6 b ++ ".png".toList) := by
    simp [frameImageName, pad6, hb]
  constructor
  · rw [hkey, hkey2, leL_append_same,
      leL_append_of_ne _ _ _ _ hlen hpadlt.2, hpadlt.1]
  · rw [hkey, hkey2]
    intro h
    exact hpadlt.2 (by
      have := List.append_cancel_left h
      exact List.append_cancel_right this)

/-- The frame paths in template order are sorted for the Python string
order whenever the frame count keeps every index within six digits. -/
theorem framesOnDisk_sorted {N : Nat} (hN : N ≤ 999999) :
    List.Sorted (fun a b => leL a b = true) (framesOnDisk N) := by
  unfold framesOnDisk extractedFrames List.Sorted
  rw [List.map_map, List.pairwise_map]
  apply List.Pairwise.imp_of_mem ?_ (List.pairwise_lt_range N)
  intro i j hi hj hij
  rw [List.mem_range] at hj
  have hb : j + 1 < 1000000 := by omega
  have h := leL_frameImageName (by omega : i + 1 < j + 1) hb
  show leL (pathJoinC framesDir (frameImageName (i + 1)))
      (pathJoinC framesDir (frameImageName (j + 1))) = true
  have hjoin : ∀ n : Nat, pathJoinC framesDir (frameImageName n)
      = (framesDir ++ ['/']) ++ frameImageName n := by
    intro n
    simp [pathJoinC]
  rw [hjoin, hjoin, leL_append_same]
  exact h.1

theorem leL_total_bool (a b : List Char) : (leL a b || leL b a) = true := by
  rcases leL_total a b with h | h <;> simp [h]

theorem framesOnDisk_length (N : Nat) : (framesOnDisk N).length = N := by
  simp [framesOnDisk, extractedFrames]

theorem mem_framesOnDisk {N : Nat} {x : List Char} (h : x ∈ framesOnDisk N) :
    ∃ k, k < N ∧ x = pathJoinC framesDir (frameImageName (k + 1)) := by
  unfold framesOnDisk extractedFrames at h
  rw [List.map_map] at h
  rcases List.mem_map.mp h with ⟨k, hk, hx⟩
  exact ⟨k, List.mem_range.mp hk, hx.symm⟩

/-- C10 counterexample: with `N = 1000000` extracted frames the
seven-digit file name of frame number `1000000` sorts lexicographically
*before* the six-digit zero-padded name of frame number `100001`, so the
sorted listing no longer mirrors the decoder's numbering and some script
references the wrong image.  The claim, quantified over every frame
count, is therefore false. -/
theorem C10_counterexample_million_frames : ¬ C10Prop 1000000 := by
  intro h
  have hperm : (framesOnDisk 1000000).Perm (framesOnDisk 1000000) :=
    List.Perm.refl _
  have hmperm := List.mergeSort_perm (framesOnDisk 1000000) leL
  have hlen : (sortedPngs (framesOnDisk 1000000)).length = 1000000 := by
    rw [show sortedPngs (framesOnDisk 1000000)
        = (framesOnDisk 1000000).mergeSort leL from rfl]
    rw [hmperm.length_eq, framesOnDisk_length]
  have h1 := h _ hperm 100000 (by norm_num)
  have h2 := h _ hperm 999999 (by norm_num)
  have hfix : ∀ i, i < 1000000 →
      basename ((sortedPngs (framesOnDisk 1000000)).getD i [])
        = frameImageName (i + 1) →
      (sortedPngs (framesOnDisk 1000000)).getD i []
        = pathJoinC framesDir (frameImageName (i + 1)) := by
    intro i hi hbase
    have hmem : (sortedPngs (framesOnDisk 1000000)).getD i []
        ∈ sortedPngs (framesOnDisk 1000000) := by
      rw [List.getD_eq_getElem _ _ (by omega : i < (sortedPngs (framesOnDisk 1000000)).length)]
      exact List.getElem_mem _
    have hmem2 : (sortedPngs (framesOnDisk 1000000)).getD i []
        ∈ framesOnDisk 1000000 := hmperm.mem_iff.mp hmem
    rcases mem_framesOnDisk hmem2 with ⟨k, _, hk⟩
    rw [hk] at hbase ⊢
    rw [basename_frame_path] at hbase
    rw [hbase]
  have e1 := hfix 100000 (by norm_num) h1
  have e2 := hfix 999999 (by norm_num) h2
  have hsorted : (sortedPngs (framesOnDisk 1000000)).Pairwise
      (fun a b => leL a b = true) :=
    List.sorted_mergeSort leL_trans leL_total_bool (framesOnDisk 1000000)
  have hij : (⟨100000, by omega⟩ : Fin (sortedPngs (framesOnDisk 1000000)).length)
      < (⟨999999, by omega⟩ : Fin (sortedPngs (framesOnDisk 1000000)).length) := by
    simp [Fin.lt_def]
  have hle := (List.pairwise_iff_get.mp hsorted) _ _ hij
  rw [List.get_eq_getElem, List.get_eq_getElem,
    ← List.getD_eq_getElem _ ([] : List Char),
    ← List.getD_eq_getElem _ ([] : List Char)] at hle
  rw [e1, e2] at hle
  have hjoin : ∀ n : Nat, pathJoinC framesDir (frameImageName n)
      = (framesDir ++ ['/']) ++ frameImageName n := by
    intro n
    simp [pathJoinC]
  rw [hjoin, hjoin, leL_append_same] at hle
  have hfalse : leL (frameImageName (100000 + 1)) (frameImageName (999999 + 1))
      = false := by decide
  rw [hfalse] at hle
  exact Bool.false_ne_true hle

/-- C10 amended: as long as the frame count stays within the six-digit
padding capacity (`N ≤ 999999`), for every directory-listing order of the
extracted frames the `i`-th entry of the sorted listing is exactly the
image the decoder numbered `i + 1`, and frame script `i` (for any
namespace) renders exactly that image's basename — so the 0-based script
indexing and the 1-based image numbering leave no missing first frame and
every extracted image is referenced by exactly one script. -/
theorem C10_sorted_listing_matches_numbering (N : Nat) (hN : N ≤ 999999)
    (files : List (List Char)) (hperm : files.Perm (framesOnDisk N))
    (i : Nat) (hi : i < N) :
    basename ((sortedPngs files).getD i []) = frameImageName (i + 1) ∧
    ∀ ns : List Char,
      ((frameScriptFiles ns (sortedPngs files)).getD i ([], [])).2
        = frameScriptLines ns (frameImageName (i + 1)) i N := by
  have hsorted2 : (sortedPngs files).Pairwise (fun a b => leL a b = true) :=
    List.sorted_mergeSort leL_trans leL_total_bool files
  have hperm2 : (sortedPngs files).Perm (framesOnDisk N) :=
    (List.mergeSort_perm files leL).trans hperm
  have heq : sortedPngs files = framesOnDisk N :=
    @List.eq_of_perm_of_sorted (List Char) (fun a b => leL a b = true)
      ⟨leL_antisymm⟩ _ _ hperm2 hsorted2 (framesOnDisk_sorted hN)
  have hlen : (sortedPngs files).length = N := by
    rw [heq, framesOnDisk_length]
  have hgd : (sortedPngs files).getD i []
      = pathJoinC framesDir (frameImageName (i + 1)) := by
    rw [heq]
    rw [List.getD_eq_getElem _ _ (by rw [framesOnDisk_length]; exact hi)]
    simp [framesOnDisk, extractedFrames]
  have hbase : basename ((sortedPngs files).getD i []) = frameImageName (i + 1) := by
    rw [hgd, basename_frame_path]
  refine ⟨hbase, ?_⟩
  intro ns
  rw [frameScriptFiles_getD ns (sortedPngs files) i (by omega)]
  simp only
  rw [hbase, hlen]

/-- C10 witness: two frames listed in reversed order; script 0 renders
frame number 1. -/
theorem C10_sorted_listing_matches_numbering_witness :
    basename ((sortedPngs [pathJoinC framesDir (frameImageName 2),
        pathJoinC framesDir (frameImageName 1)]).getD 0 [])
      = frameImageName 1 ∧
    ∀ ns : List Char,
      ((frameScriptFiles ns (sortedPngs [pathJoinC framesDir (frameImageName 2),
          pathJoinC framesDir (frameImageName 1)])).getD 0 ([], [])).2
        = frameScriptLines ns (frameImageName 1) 0 2 :=
  C10_sorted_listing_matches_numbering 2 (by norm_num)
    [pathJoinC framesDir (frameImageName 2),
     pathJoinC framesDir (frameImageName 1)]
    (by decide) 0 (by norm_num)

/-- C7: the archive is rebuilt from scratch — a pre-existing archive of
the same name never contributes (it is removed, then mode-`w` creation
truncates) — and it holds exactly the files under the package root,
each under its root-relative path: re-prefixing the root segments
reproduces the walked tree exactly, and (for a filesystem with no empty
path segments, i.e. no absolute paths) no entry path is absolute. -/
theorem C7_archive_relative_paths_overwrite (root : PathSeg) (fs : FS)
    (prev₁ prev₂ : Option FS)
    (hvalid : ∀ pc ∈ fs, ∀ seg ∈ pc.1, seg ≠ ([] : List Char)) :
    buildZipArchive prev₁ root fs = buildZipArchive prev₂ root fs ∧
    (buildZipArchive prev₁ root fs).map (fun pc => (root ++ pc.1, pc.2))
      = filesUnder root fs ∧
    ∀ pc ∈ buildZipArchive prev₁ root fs, ∀ seg ∈ pc.1,
      seg ≠ ([] : List Char) := by
  refine ⟨rfl, ?_, ?_⟩
  · unfold buildZipArchive
    rw [List.map_map]
    have hid : ∀ pc ∈ filesUnder root fs,
        ((fun pc : PathSeg × List Char => (root ++ pc.1, pc.2)) ∘
          fun pc : PathSeg × List Char =>
            (List.drop root.length pc.1, pc.2)) pc = id pc := by
      intro pc hpc
      rcases List.mem_filter.mp hpc with ⟨_, hpred⟩
      have hpre := List.isPrefixOf_iff_prefix.mp hpred
      obtain ⟨t, ht⟩ := hpre
      simp only [Function.comp_apply, id]
      rw [← ht, List.drop_left, ht]
    rw [List.map_congr_left hid, List.map_id]
  · intro pc hpc seg hseg
    unfold buildZipArchive at hpc
    rcases List.mem_map.mp hpc with ⟨qc, hqc, hqceq⟩
    rcases List.mem_filter.mp hqc with ⟨hqmem, _⟩
    have hsub : seg ∈ qc.1 := by
      have hdrop : pc.1 = List.drop root.length qc.1 := by rw [← hqceq]
      exact (List.drop_suffix root.length qc.1).subset (hdrop ▸ hseg)
    exact hvalid qc hqmem seg hsub

/-- C7 witness: a package tree with two nested files, another file
outside the package root, and a pre-existing archive. -/
theorem C7_archive_relative_paths_overwrite_witness :
    buildZipArchive (some prevSampleC7) [DEFAULT_DATAPACK_NAME] fsSampleC7
      = buildZipArchive none [DEFAULT_DATAPACK_NAME] fsSampleC7 ∧
    (buildZipArchive (some prevSampleC7) [DEFAULT_DATAPACK_NAME] fsSampleC7).map
          (fun pc => ([DEFAULT_DATAPACK_NAME] ++ pc.1, pc.2))
      = filesUnder [DEFAULT_DATAPACK_NAME] fsSampleC7 ∧
    ∀ pc ∈ buildZipArchive (some prevSampleC7) [DEFAULT_DATAPACK_NAME] fsSampleC7,
      ∀ seg ∈ pc.1, seg ≠ ([] : List Char) :=
  C7_archive_relative_paths_overwrite [DEFAULT_DATAPACK_NAME] fsSampleC7
    (some prevSampleC7) none (by decide)

theorem find?_filter_of_imp {α : Type} (P pred : α → Bool)
    (himp : ∀ x, P x = true → pred x = true) :
    ∀ l : List α, (List.filter pred l).find? P = l.find? P
  | [] => rfl
  | a :: l => by
    by_cases hpa : pred a = true
    · rw [List.filter_cons_of_pos hpa, List.find?_cons, List.find?_cons]
      cases hP : P a
      · exact find?_filter_of_imp P pred himp l
      · rfl
    · have hPa : P a = false := by
        cases hP : P a
        · rfl
        · exact absurd (himp a hP) hpa
      rw [List.filter_cons_of_neg (by simpa using hpa), List.find?_cons, hPa]
      exact find?_filter_of_imp P pred himp l

theorem fsGet_fsWrite (fs : FS) (p q : PathSeg) (c : List Char) :
    fsGet (fsWrite fs p c) q = if q = p then some c else fsGet fs q := by
  unfold fsGet fsWrite
  rw [List.find?_append]
  by_cases hq : q = p
  · subst hq
    have hnone : (List.find? (fun pc => decide (pc.1 = q))
        (List.filter (fun pc => decide (pc.1 ≠ q)) fs)) = none := by
      rw [List.find?_eq_none]
      intro x hx
      rcases List.mem_filter.mp hx with ⟨_, hpred⟩
      simp at hpred ⊢
      exact hpred
    rw [hnone]
    simp [List.find?_cons]
  · have hpq : ¬ p = q := fun h => hq h.symm
    have hsingle : (List.find? (fun pc => decide (pc.1 = q)) [(p, c)]) = none := by
      simp [List.find?_cons, hpq]
    rw [hsingle]
    rw [find?_filter_of_imp _ _ ?_ fs]
    · simp [if_neg hq]
    · intro x hx
      simp at hx ⊢
      rw [hx]
      exact hq

theorem fsGet_applyWrites_of_not_mem :
    ∀ (ws : List (PathSeg × List Char)) (fs : FS) (p : PathSeg),
    p ∉ ws.map (fun w => w.1) → fsGet (applyWrites fs ws) p = fsGet fs p
  | [], _, _, _ => rfl
  | w :: ws, fs, p, h => by
    have h1 : p ≠ w.1 := by
      intro he
      exact h (by simp [he])
    have h2 : p ∉ ws.map (fun w => w.1) := by
      intro hm
      exact h (by simp [hm])
    show fsGet (applyWrites (fsWrite fs w.1 w.2) ws) p = fsGet fs p
    rw [fsGet_applyWrites_of_not_mem ws _ p h2, fsGet_fsWrite, if_neg h1]

theorem fsGet_applyWrites_of_mem :
    ∀ (ws : List (PathSeg × List Char)) (fs : FS) (p : PathSeg) (c : List Char),
    (ws.map (fun w => w.1)).Nodup → (p, c) ∈ ws →
    fsGet (applyWrites fs ws) p = some c
  | [], _, _, _, _, hm => absurd hm (List.not_mem_nil _)
  | w :: ws, fs, p, c, hnd, hm => by
    have hnd2 : (w.1 :: ws.map (fun w => w.1)).Nodup := by simpa using hnd
    rcases List.mem_cons.mp hm with he | hm2
    · have hp1 : p = w.1 := by rw [← he]
      have hp2 : c = w.2 := by rw [← he]
      have hnotin : p ∉ ws.map (fun w => w.1) := by
        rw [hp1]
        exact (List.nodup_cons.mp hnd2).1
      show fsGet (applyWrites (fsWrite fs w.1 w.2) ws) p = some c
      rw [fsGet_applyWrites_of_not_mem ws _ p hnotin, fsGet_fsWrite, if_pos hp1,
        hp2]
    · show fsGet (applyWrites (fsWrite fs w.1 w.2) ws) p = some c
      exact fsGet_applyWrites_of_mem ws _ p c (List.nodup_cons.mp hnd2).2 hm2

theorem scriptFileName_injective : Function.Injective scriptFileName := by
  intro a b h
  apply natChars_injective
  unfold scriptFileName scriptFileStem at h
  have h1 := List.append_cancel_right h
  have h2 := List.append_cancel_left h1
  exact List.tail_eq_of_cons_eq h2

theorem scriptPath_injective (ns : List Char) :
    Function.Injective (scriptPath ns) := by
  intro a b h
  unfold scriptPath at h
  have h1 := List.append_cancel_left h
  have h2 : scriptFileName a = scriptFileName b := by
    simpa using h1
  exact scriptFileName_injective h2

theorem scriptFileName_head (i : Nat) : (scriptFileName i).head? = some 'v' := by
  have h : DEFAULT_DATAPACK_NAME = 'v' :: "ideopack".toList := rfl
  simp [scriptFileName, scriptFileStem, h]

theorem packageWrites_map_fst (ns : List Char) (pngs : List (List Char)) :
    (packageWrites ns pngs).map (fun w => w.1)
      = mcmetaPath ns :: mainPath ns
        :: (List.range pngs.length).map (scriptPath ns) := by
  unfold packageWrites
  simp only [List.map_cons, List.map_map]
  have hfun : ((fun w : PathSeg × List Char => w.1) ∘ fun p : Nat × List Char =>
      (scriptPath ns p.1, scriptText ns (basename p.2) p.1 pngs.length))
      = scriptPath ns ∘ Prod.fst := rfl
  rw [hfun, ← List.map_map, List.enum_map_fst]

theorem packageWrites_paths_nodup (ns : List Char) (pngs : List (List Char)) :
    ((packageWrites ns pngs).map (fun w => w.1)).Nodup := by
  rw [packageWrites_map_fst]
  have hlen_meta : (mcmetaPath ns).length = 2 := by simp [mcmetaPath]
  have hlen_main : (mainPath ns).length = 5 := by
    simp [mainPath, funcDirSeg]
  have hlen_script : ∀ i, (scriptPath ns i).length = 5 := by
    intro i
    simp [scriptPath, funcDirSeg]
  refine List.nodup_cons.mpr ⟨?_, List.nodup_cons.mpr ⟨?_, ?_⟩⟩
  · intro hmem
    rcases List.mem_cons.mp hmem with he | hmem2
    · have := congrArg List.length he
      rw [hlen_meta, hlen_main] at this
      exact absurd this (by norm_num)
    · rcases List.mem_map.mp hmem2 with ⟨i, _, hi⟩
      have := congrArg List.length hi
      rw [hlen_script, hlen_meta] at this
      exact absurd this (by norm_num)
  · intro hmem
    rcases List.mem_map.mp hmem with ⟨i, _, hi⟩
    unfold mainPath scriptPath at hi
    have h1 := List.append_cancel_left hi.symm
    have h2 : ("main.mcfunction".toList : List Char) = scriptFileName i := by
      simpa using h1
    have h3 := congrArg List.head? h2
    rw [scriptFileName_head] at h3
    exact absurd h3 (by decide)
  · exact List.Nodup.map (scriptPath_injective ns) (List.nodup_range _)

/-- C8 counterexample: the package root is never cleared
(`os.makedirs(..., exist_ok=True)`, line 177), so a stale frame script
from a previous five-frame run (`videopack_7.mcfunction`) survives a
three-frame run untouched: it is still on disk under the package root —
it is not among this run's writes — and the archiver, which walks the
root, packs it into the archive under its relative path.  The package
directory and the archive therefore do not contain exactly this run's
generated artifacts. -/
theorem C8_counterexample_stale_script :
    fsGet (build_datapack_fs
        [(scriptPath DEFAULT_DATAPACK_NAME 7, "old".toList)]
        DEFAULT_DATAPACK_NAME (framesOnDisk 3))
      (scriptPath DEFAULT_DATAPACK_NAME 7) = some ("old".toList) ∧
    scriptPath DEFAULT_DATAPACK_NAME 7
      ∉ (packageWrites DEFAULT_DATAPACK_NAME (framesOnDisk 3)).map
          (fun w => w.1) ∧
    (List.drop 1 (scriptPath DEFAULT_DATAPACK_NAME 7), "old".toList)
      ∈ buildZipArchive none [DEFAULT_DATAPACK_NAME]
          (build_datapack_fs
            [(scriptPath DEFAULT_DATAPACK_NAME 7, "old".toList)]
            DEFAULT_DATAPACK_NAME (framesOnDisk 3)) := by
  refine ⟨by decide, by decide, by decide⟩

/-- C8 amended: a run over a nonempty image list regenerates exactly its
own artifacts — the metadata file, the entry script and the `N` frame
scripts all end up on disk with this run's contents — but every other
pre-existing file under the package directory is left untouched, so
stale files from earlier runs remain in the package directory (and hence
in the archive, which packs everything under the root). -/
theorem C8_regenerated_plus_stale (init : FS) (ns : List Char)
    (pngs : List (List Char)) (hne : pngs ≠ []) :
    (∀ p : PathSeg, p ∉ (packageWrites ns pngs).map (fun w => w.1) →
      fsGet (build_datapack_fs init ns pngs) p = fsGet init p) ∧
    (∀ w ∈ packageWrites ns pngs,
      fsGet (build_datapack_fs init ns pngs) w.1 = some w.2) := by
  have hbd : build_datapack_fs init ns pngs
      = applyWrites init (packageWrites ns pngs) := by
    simp [build_datapack_fs, hne]
  constructor
  · intro p hp
    rw [hbd]
    exact fsGet_applyWrites_of_not_mem _ init p hp
  · intro w hw
    rw [hbd]
    exact fsGet_applyWrites_of_mem _ init w.1 w.2
      (packageWrites_paths_nodup ns pngs) hw

/-- C8 witness: the amended statement at the stale-file scenario of the
counterexample. -/
theorem C8_regenerated_plus_stale_witness :
    (∀ p : PathSeg,
      p ∉ (packageWrites DEFAULT_DATAPACK_NAME (framesOnDisk 3)).map
            (fun w => w.1) →
      fsGet (build_datapack_fs
          [(scriptPath DEFAULT_DATAPACK_NAME 7, "old".toList)]
          DEFAULT_DATAPACK_NAME (framesOnDisk 3)) p
        = fsGet [(scriptPath DEFAULT_DATAPACK_NAME 7, "old".toList)] p) ∧
    (∀ w ∈ packageWrites DEFAULT_DATAPACK_NAME (framesOnDisk 3),
      fsGet (build_datapack_fs
          [(scriptPath DEFAULT_DATAPACK_NAME 7, "old".toList)]
          DEFAULT_DATAPACK_NAME (framesOnDisk 3)) w.1 = some w.2) :=
  C8_regenerated_plus_stale
    [(scriptPath DEFAULT_DATAPACK_NAME 7, "old".toList)]
    DEFAULT_DATAPACK_NAME (framesOnDisk 3) (by decide)

/-- C3 counterexample: with an empty extracted frame set the run prints
the warning and performs no writes — but the process then completes
normally: `build_datapack` plain-returns (line 170), `main` resumes and
finishes, and the interpreter exits with code 0, not the non-zero code
the claim requires. -/
theorem C3_counterexample_exit_code_zero :
    main_exit 2 true [] DEFAULT_DATAPACK_NAME
      = (0, some ⟨[], [], [], false, true⟩) ∧
    (main_exit 2 true [] DEFAULT_DATAPACK_NAME).1 = 0 := by
  refine ⟨by decide, by decide⟩

/-- C3 amended: an empty extracted frame set produces the user-visible
"nothing to package" warning and no effects whatsoever — no directory
creation, no package writes, no image copies, no archive — but the run
then completes with exit code 0 instead of aborting with a non-zero
code. -/
theorem C3_empty_frames_no_writes_exit_zero (ns : List Char) :
    build_datapack_outcome ns [] = ⟨[], [], [], false, true⟩ ∧
    build_datapack_fs [] ns [] = [] ∧
    main_exit 2 true [] ns = (0, some ⟨[], [], [], false, true⟩) := by
  refine ⟨rfl, rfl, rfl⟩

theorem distinctColors_expandRGBA (pi : PalImage)
    (hidx : ∀ i ∈ pi.index, i < pi.palette.length) :
    distinctColors (expandRGBA pi) ≤ pi.palette.length := by
  unfold distinctColors expandRGBA
  have hsub : (pi.index.map (fun i => pi.palette.getD i (0, 0, 0, 0))).toFinset
      ⊆ pi.palette.toFinset := by
    intro x hx
    rw [List.mem_toFinset] at hx ⊢
    rcases List.mem_map.mp hx with ⟨i, hi, hxi⟩
    have hlt := hidx i hi
    rw [← hxi, List.getD_eq_getElem _ _ hlt]
    exact List.getElem_mem _
  calc (pi.index.map (fun i => pi.palette.getD i (0, 0, 0, 0))).dedup.length
      = (pi.index.map (fun i => pi.palette.getD i (0, 0, 0, 0))).toFinset.card :=
        (List.card_toFinset _).symm
    _ ≤ pi.palette.toFinset.card := Finset.card_le_card hsub
    _ = pi.palette.dedup.length := List.card_toFinset _
    _ ≤ pi.palette.length := (List.dedup_sublist _).length_le

/-- C9 counterexample: the threshold `0` is set and strictly below 256,
so by the claim quantization must be applied — which would force the
processed image to at most 0 distinct colors and, with the sample
quantizer, to pixel content different from the original.  Python's
truthiness test `if MAX_COLORS and MAX_COLORS < 256` treats `0` as
false, so the code applies nothing: the image is returned unchanged with
its 2 colors. -/
theorem C9_counterexample_zero_threshold :
    (∃ m, (some 0 : Option Nat) = some m ∧ m < 256) ∧
    postProcessPixels (some 0) quantSampleZero imgSample = imgSample ∧
    imgSample ≠ expandRGBA (quantSampleZero 0 imgSample) ∧
    distinctColors imgSample = 2 := by
  refine ⟨⟨0, rfl, by norm_num⟩, by decide, by decide, by decide⟩

/-- C9 amended: quantization is applied if and only if the threshold is
set to a *nonzero* value strictly below 256 (Python truthiness also
skips a configured 0); an unset threshold, the configured default 256,
or any other non-qualifying value leaves the pixel content unchanged by
the decode/re-encode round trip; and when quantization is applied with
threshold `m`, a quantizer honoring the library's palette contract
(palette of at most `m` entries, valid indices) yields an image with at
most `m` distinct colors. -/
theorem C9_quantization_condition (mc : Option Nat)
    (q : Nat → List Pixel → PalImage) (img : List Pixel) (m : Nat) :
    (postProcessPixels none q img = img) ∧
    (postProcessPixels MAX_COLORS q img = img) ∧
    (mc = some m → m ≠ 0 → m < 256 →
      postProcessPixels mc q img = expandRGBA (q m img)) ∧
    (mc = some m → (m = 0 ∨ ¬ m < 256) → postProcessPixels mc q img = img) ∧
    (mc = some m → m ≠ 0 → m < 256 →
      (q m img).palette.length ≤ m →
      (∀ i ∈ (q m img).index, i < (q m img).palette.length) →
      distinctColors (postProcessPixels mc q img) ≤ m) := by
  refine ⟨rfl, ?_, ?_, ?_, ?_⟩
  · show postProcessPixels (some 256) q img = img
    simp [postProcessPixels]
  · intro hmc hm0 hm256
    subst hmc
    simp [postProcessPixels, hm0, hm256]
  · intro hmc hbad
    subst hmc
    rcases hbad with h | h <;> simp [postProcessPixels, h]
  · intro hmc hm0 hm256 hpal hidx
    subst hmc
    have hpp : postProcessPixels (some m) q img = expandRGBA (q m img) := by
      simp [postProcessPixels, hm0, hm256]
    rw [hpp]
    exact le_trans (distinctColors_expandRGBA (q m img) hidx) hpal

/-- C9 witness: threshold 16 with the single-color quantizer on the
two-color sample image. -/
theorem C9_quantization_condition_witness :
    distinctColors (postProcessPixels (some 16) quantSampleConst imgSample)
      ≤ 16 :=
  (C9_quantization_condition (some 16) quantSampleConst imgSample 16).2.2.2.2
    rfl (by norm_num) (by norm_num) (by decide) (by decide)
